import Mathlib

/-!
Shallow embedding of the grocery-aggregation and weight-progress core of the
Sloth application (frontend `SubscriptionPage.tsx` / `WeightPage.tsx`, plus the
weight types consumed from the backend), together with theorems settling the
specification claims about it.
-/

namespace Sloth

/-! ### String helpers

Embeddings of the JavaScript string operations used by the aggregator:
`trim()`, `toLowerCase()`, and `charAt(0).toUpperCase() + slice(1)`.
`Char.toLower` / `Char.toUpper` from core mirror JS behaviour on the basic
latin range used by the product data.
-/

/-- JS `String.prototype.toLowerCase`, char-by-char (basic latin). -/
def toLowerStr (s : String) : String := ⟨s.data.map Char.toLower⟩

/-- Whitespace test used by `trim`. -/
def isWsChar (c : Char) : Bool := c = ' ' || c = '\t' || c = '\n' || c = '\r'

/-- JS `String.prototype.trim`: strip leading and trailing whitespace. -/
def trimStr (s : String) : String :=
  ⟨((s.data.dropWhile isWsChar).reverse.dropWhile isWsChar).reverse⟩

/-- JS `key.charAt(0).toUpperCase() + key.slice(1)`: capitalize first char. -/
def capFirst (s : String) : String :=
  match s.data with
  | [] => ""
  | c :: cs => ⟨Char.toUpper c :: cs⟩

theorem char_toNat_ofNat {n : Nat} (h : n.isValidChar) : (Char.ofNat n).toNat = n := by
  rw [Char.ofNat, dif_pos h]
  rfl

theorem toLower_toNat_not_upper (c : Char) :
    ¬(65 ≤ (Char.toLower c).toNat ∧ (Char.toLower c).toNat ≤ 90) := by
  rw [Char.toLower]
  split
  · rename_i h
    rw [char_toNat_ofNat]
    · omega
    · exact Or.inl (by omega)
  · rename_i h
    omega

theorem toLower_toLower (c : Char) : Char.toLower (Char.toLower c) = Char.toLower c := by
  have h := toLower_toNat_not_upper c
  conv_lhs => rw [Char.toLower]
  rw [if_neg]
  intro hc
  exact h hc

theorem toLower_toUpper_of_not_upper (c : Char)
    (h : ¬(65 ≤ c.toNat ∧ c.toNat ≤ 90)) :
    Char.toLower (Char.toUpper c) = c := by
  rw [Char.toUpper]
  split
  · rename_i hl
    have hv : (c.toNat - 32).isValidChar := Or.inl (by omega)
    rw [Char.toLower, char_toNat_ofNat hv, if_pos (by omega)]
    have : c.toNat - 32 + 32 = c.toNat := by omega
    rw [this, Char.ofNat_toNat]
  · rename_i hl
    rw [Char.toLower, if_neg h]

/-- Lowercasing is idempotent (char-by-char). -/
theorem toLowerStr_toLowerStr (s : String) : toLowerStr (toLowerStr s) = toLowerStr s := by
  simp only [toLowerStr, List.map_map]
  congr 1
  apply List.map_congr_left
  intro c _
  exact toLower_toLower c

/-- Re-capitalizing a lowercased key and lowercasing again gives back the key. -/
theorem toLowerStr_capFirst (s : String) :
    toLowerStr (capFirst (toLowerStr s)) = toLowerStr s := by
  rcases s with ⟨cs⟩
  cases cs with
  | nil => rfl
  | cons c rest =>
    simp only [toLowerStr, capFirst, List.map_cons]
    congr 1
    refine List.cons_eq_cons.mpr ⟨?_, ?_⟩
    · exact toLower_toUpper_of_not_upper _ (toLower_toNat_not_upper c)
    · simp only [List.map_map]
      apply List.map_congr_left
      intro x _
      exact toLower_toLower x

/-! ### Data model (from `src/unnamed/part_001` types and `SubscriptionPage.tsx`)

Quantities are modelled as exact rationals; `Math.round(x*10)/10` becomes
`round1` below.  Only the fields the aggregator reads are kept.
-/

structure Ingredient where
  product_name : String
  quantity : ℚ
  unit : String
deriving DecidableEq

structure Meal where
  ingredients : List Ingredient
deriving DecidableEq

structure MealPlan where
  id : String
  day_number : ℕ
  meals : List Meal
deriving DecidableEq

structure MealPlanListItem where
  id : String
  day_number : ℕ
deriving DecidableEq

structure AggregatedItem where
  name : String
  quantities : List (ℚ × String)
  displayAmount : String
  checked : Bool
deriving DecidableEq

/-- JS `Math.round` on an exact rational: round half toward positive infinity. -/
def jsRound (q : ℚ) : ℤ := ⌊q + 1/2⌋

/-- The display rounding `Math.round(amount * 10) / 10` of the aggregator. -/
def round1 (q : ℚ) : ℚ := (jsRound (q * 10) : ℚ) / 10

/-! ### JS `Map` as an insertion-ordered association list

`Map.set` updates an existing key in place (keeping its position) and
appends a missing key at the end; `Map.get` returns the value or `undefined`.
Iteration (`forEach`) follows insertion order, which the association list
preserves by construction.
-/

def jsMapGet {α : Type} (m : List (String × α)) (k : String) : Option α :=
  match m with
  | [] => none
  | (k', v) :: rest => if k' = k then some v else jsMapGet rest k

def jsMapSet {α : Type} (m : List (String × α)) (k : String) (v : α) :
    List (String × α) :=
  match m with
  | [] => [(k, v)]
  | (k', v') :: rest =>
      if k' = k then (k', v) :: rest else (k', v') :: jsMapSet rest k v

theorem jsMapGet_set_self {α : Type} (m : List (String × α)) (k : String) (v : α) :
    jsMapGet (jsMapSet m k v) k = some v := by
  induction m with
  | nil => simp [jsMapGet, jsMapSet]
  | cons p rest ih =>
    obtain ⟨k', v'⟩ := p
    by_cases h : k' = k
    · simp [jsMapGet, jsMapSet, h]
    · simp [jsMapGet, jsMapSet, h, ih]

theorem jsMapGet_set_ne {α : Type} (m : List (String × α)) (k k' : String) (v : α)
    (h : k' ≠ k) : jsMapGet (jsMapSet m k v) k' = jsMapGet m k' := by
  induction m with
  | nil => simp [jsMapGet, jsMapSet, Ne.symm h]
  | cons p rest ih =>
    obtain ⟨k₀, v₀⟩ := p
    by_cases h0 : k₀ = k
    · subst h0
      simp [jsMapGet, jsMapSet, Ne.symm h]
    · simp only [jsMapSet, if_neg h0, jsMapGet]
      by_cases h1 : k₀ = k'
      · simp [h1]
      · simp [h1, ih]

theorem jsMapSet_keys {α : Type} (m : List (String × α)) (k : String) (v : α) :
    (jsMapSet m k v).map Prod.fst =
      if k ∈ m.map Prod.fst then m.map Prod.fst else m.map Prod.fst ++ [k] := by
  induction m with
  | nil => simp [jsMapSet]
  | cons p rest ih =>
    obtain ⟨k₀, v₀⟩ := p
    by_cases h0 : k₀ = k
    · simp [jsMapSet, h0]
    · simp only [jsMapSet, if_neg h0, List.map_cons, ih]
      by_cases hmem : k ∈ rest.map Prod.fst
      · simp [hmem, Ne.symm h0]
      · simp [hmem, Ne.symm h0]

theorem jsMapGet_eq_none {α : Type} (m : List (String × α)) (k : String) :
    jsMapGet m k = none ↔ k ∉ m.map Prod.fst := by
  induction m with
  | nil => simp [jsMapGet]
  | cons p rest ih =>
    obtain ⟨k₀, v₀⟩ := p
    by_cases h0 : k₀ = k
    · simp [jsMapGet, h0]
    · simp [jsMapGet, h0, ih, Ne.symm h0]

theorem jsMapGet_isSome {α : Type} (m : List (String × α)) (k : String) :
    (jsMapGet m k).isSome ↔ k ∈ m.map Prod.fst := by
  rcases hg : jsMapGet m k with _ | v
  · simpa [hg] using (jsMapGet_eq_none m k).mp hg
  · have : ¬ jsMapGet m k = none := by simp [hg]
    have := (not_iff_not.mpr (jsMapGet_eq_none m k)).mp this
    simpa [hg] using not_not.mp this

theorem jsMapSet_keys_nodup {α : Type} (m : List (String × α)) (k : String) (v : α)
    (h : (m.map Prod.fst).Nodup) : ((jsMapSet m k v).map Prod.fst).Nodup := by
  rw [jsMapSet_keys]
  split
  · exact h
  · rename_i hnot
    rw [List.nodup_append]
    refine ⟨h, List.nodup_singleton _, ?_⟩
    intro a ha hb
    rw [List.mem_singleton] at hb
    subst hb
    exact hnot ha

/-! ### The grocery aggregator (`groceryItems` in `SubscriptionPage.tsx`) -/

/-- The aggregation key `ingredient.product_name.trim().toLowerCase()`. -/
def normName (s : String) : String := toLowerStr (trimStr s)

abbrev ItemMap := List (String × List (String × ℚ))

/-- The body of the triple `forEach` loop in `groceryItems`: insert one
ingredient into the accumulating item map. -/
def addIngredient (itemMap : ItemMap) (ingredient : Ingredient) : ItemMap :=
  let name := normName ingredient.product_name
  let amounts := (jsMapGet itemMap name).getD []
  let unit := toLowerStr ingredient.unit
  let current := (jsMapGet amounts unit).getD 0
  jsMapSet itemMap name (jsMapSet amounts unit (current + ingredient.quantity))

/-- The plan → meal → ingredient iteration order of the nested `forEach`es. -/
def flatIngredients (detailedPlans : List MealPlan) : List Ingredient :=
  (detailedPlans.flatMap (·.meals)).flatMap (·.ingredients)

def buildItemMap (detailedPlans : List MealPlan) : ItemMap :=
  (flatIngredients detailedPlans).foldl addIngredient []

/-- Rendering step of `groceryItems`: one `AggregatedItem` per map entry. -/
def renderItem (checkedItems : Finset String) (key : String)
    (amounts : List (String × ℚ)) : AggregatedItem :=
  { name := capFirst key
    quantities := amounts.map (fun p => (round1 p.2, p.1))
    displayAmount :=
      String.intercalate " + "
        (amounts.map (fun p => toString (round1 p.2) ++ " " ++ p.1))
    checked := decide (key ∈ checkedItems) }

/-- The comparator passed to `items.sort`; `lc` embeds the runtime-provided
`a.name.localeCompare(b.name, 'de')`. -/
def compareItems (lc : String → String → Int) (a b : AggregatedItem) : Int :=
  if a.checked ≠ b.checked then (if a.checked then 1 else -1)
  else lc a.name b.name

def itemLE (lc : String → String → Int) (a b : AggregatedItem) : Bool :=
  decide (compareItems lc a b ≤ 0)

/-- The full `groceryItems` memo: aggregate, render, sort. -/
def groceryItems (detailedPlans : List MealPlan) (checkedItems : Finset String)
    (lc : String → String → Int) : List AggregatedItem :=
  ((buildItemMap detailedPlans).map
      (fun p => renderItem checkedItems p.1 p.2)).mergeSort (itemLE lc)

/-- The `selectedPlanIds` computation of `GroceryListPage`. -/
def selectedPlanIds (mealPlans : List MealPlanListItem) (selectedDays : List ℕ) :
    List String :=
  (mealPlans.filter (fun p => selectedDays.contains p.day_number)).map (·.id)

/-- The two pieces of UI-local state of `GroceryListPage`. -/
structure GroceryState where
  selectedDays : List ℕ
  checkedItems : Finset String

/-- Embedding of `toggleDay`: flip one day in the selection and reset the checked set. -/
def toggleDay (s : GroceryState) (day : ℕ) : GroceryState :=
  { selectedDays :=
      if s.selectedDays.contains day then
        s.selectedDays.filter (fun d => d != day)
      else
        (s.selectedDays ++ [day]).mergeSort (fun a b => decide (a ≤ b))
    checkedItems := ∅ }

/-- The three preset buttons: replace the selection and reset checked state. -/
def applyPreset (_s : GroceryState) (days : List ℕ) : GroceryState :=
  { selectedDays := days, checkedItems := ∅ }

/-- Embedding of `toggleItem`: flip the membership of the lowercased display
name (`const key = name.toLowerCase()`; delete if present, add otherwise). -/
def toggleItem (checkedItems : Finset String) (name : String) : Finset String :=
  if toLowerStr name ∈ checkedItems then checkedItems.erase (toLowerStr name)
  else insert (toLowerStr name) checkedItems

/-! ### Characterizations used in the claim statements -/

/-- The full-precision sum of all quantities logged for aggregation key `k`
and lowercased unit `u` in an ingredient sequence. -/
def exactTotal (ings : List Ingredient) (k u : String) : ℚ :=
  ((ings.filter (fun i =>
      decide (normName i.product_name = k ∧ toLowerStr i.unit = u))).map
    (·.quantity)).sum

/-- The amounts association list the item map holds for key `k`. -/
def amountsOf (m : ItemMap) (k : String) : List (String × ℚ) :=
  (jsMapGet m k).getD []

/-- The running total the item map holds for key `k` and unit `u`. -/
def unitTotal (m : ItemMap) (k u : String) : ℚ :=
  (jsMapGet (amountsOf m k) u).getD 0

/-! ### Aggregation invariants -/

theorem unitTotal_addIngredient (m : ItemMap) (i : Ingredient) (k u : String) :
    unitTotal (addIngredient m i) k u =
      unitTotal m k u +
        (if normName i.product_name = k ∧ toLowerStr i.unit = u then i.quantity
          else 0) := by
  by_cases hk : normName i.product_name = k
  · by_cases hu : toLowerStr i.unit = u
    · rw [if_pos ⟨hk, hu⟩]
      simp only [unitTotal, amountsOf, addIngredient, hk, hu, jsMapGet_set_self,
        Option.getD_some]
    · rw [if_neg (by simp [hu])]
      simp only [unitTotal, amountsOf, addIngredient, hk, jsMapGet_set_self,
        Option.getD_some, jsMapGet_set_ne _ _ _ _ (Ne.symm hu)]
      simp
  · rw [if_neg (by simp [hk])]
    simp only [unitTotal, amountsOf, addIngredient,
      jsMapGet_set_ne _ _ _ _ (Ne.symm hk)]
    simp

theorem unitTotal_foldl (ings : List Ingredient) (m : ItemMap) (k u : String) :
    unitTotal (ings.foldl addIngredient m) k u =
      unitTotal m k u + exactTotal ings k u := by
  induction ings generalizing m with
  | nil => simp [exactTotal]
  | cons i rest ih =>
    rw [List.foldl_cons, ih, unitTotal_addIngredient]
    unfold exactTotal
    rw [List.filter_cons]
    by_cases h : normName i.product_name = k ∧ toLowerStr i.unit = u
    · rw [if_pos h, if_pos (decide_eq_true h), List.map_cons, List.sum_cons]
      ring
    · rw [if_neg h, if_neg (by simpa using h)]
      ring

theorem keys_addIngredient (m : ItemMap) (i : Ingredient) :
    (addIngredient m i).map Prod.fst =
      if normName i.product_name ∈ m.map Prod.fst then m.map Prod.fst
      else m.map Prod.fst ++ [normName i.product_name] := by
  simp only [addIngredient]
  exact jsMapSet_keys m _ _

theorem mem_keys_addIngredient (m : ItemMap) (i : Ingredient) (k : String) :
    k ∈ (addIngredient m i).map Prod.fst ↔
      k ∈ m.map Prod.fst ∨ normName i.product_name = k := by
  rw [keys_addIngredient]
  split
  · rename_i hmem
    constructor
    · exact Or.inl
    · rintro (h | h)
      · exact h
      · exact h ▸ hmem
  · simp [List.mem_append, eq_comm]

theorem mem_keys_foldl (ings : List Ingredient) (m : ItemMap) (k : String) :
    k ∈ (ings.foldl addIngredient m).map Prod.fst ↔
      k ∈ m.map Prod.fst ∨ ∃ i ∈ ings, normName i.product_name = k := by
  induction ings generalizing m with
  | nil => simp
  | cons i rest ih =>
    rw [List.foldl_cons, ih, mem_keys_addIngredient]
    simp only [List.mem_cons]
    constructor
    · rintro ((h | h) | ⟨j, hj, hjk⟩)
      · exact Or.inl h
      · exact Or.inr ⟨i, Or.inl rfl, h⟩
      · exact Or.inr ⟨j, Or.inr hj, hjk⟩
    · rintro (h | ⟨j, (rfl | hj), hjk⟩)
      · exact Or.inl (Or.inl h)
      · exact Or.inl (Or.inr hjk)
      · exact Or.inr ⟨j, hj, hjk⟩

theorem keys_nodup_foldl (ings : List Ingredient) (m : ItemMap)
    (h : (m.map Prod.fst).Nodup) :
    ((ings.foldl addIngredient m).map Prod.fst).Nodup := by
  induction ings generalizing m with
  | nil => exact h
  | cons i rest ih =>
    rw [List.foldl_cons]
    refine ih _ ?_
    simp only [addIngredient]
    exact jsMapSet_keys_nodup _ _ _ h

theorem amountsOf_addIngredient_self (m : ItemMap) (i : Ingredient) :
    amountsOf (addIngredient m i) (normName i.product_name) =
      jsMapSet (amountsOf m (normName i.product_name)) (toLowerStr i.unit)
        ((jsMapGet (amountsOf m (normName i.product_name))
            (toLowerStr i.unit)).getD 0 + i.quantity) := by
  simp only [amountsOf, addIngredient, jsMapGet_set_self, Option.getD_some]

theorem amountsOf_addIngredient_ne (m : ItemMap) (i : Ingredient) (k : String)
    (h : normName i.product_name ≠ k) :
    amountsOf (addIngredient m i) k = amountsOf m k := by
  simp only [amountsOf, addIngredient, jsMapGet_set_ne _ _ _ _ (Ne.symm h)]

theorem units_nodup_addIngredient (m : ItemMap) (i : Ingredient) (k : String)
    (h : ((amountsOf m k).map Prod.fst).Nodup) :
    ((amountsOf (addIngredient m i) k).map Prod.fst).Nodup := by
  by_cases hk : normName i.product_name = k
  · subst hk
    rw [amountsOf_addIngredient_self]
    exact jsMapSet_keys_nodup _ _ _ h
  · rw [amountsOf_addIngredient_ne _ _ _ hk]
    exact h

theorem units_nodup_foldl (ings : List Ingredient) (m : ItemMap) (k : String)
    (h : ((amountsOf m k).map Prod.fst).Nodup) :
    ((amountsOf (ings.foldl addIngredient m) k).map Prod.fst).Nodup := by
  induction ings generalizing m with
  | nil => exact h
  | cons i rest ih =>
    rw [List.foldl_cons]
    exact ih _ (units_nodup_addIngredient _ _ _ h)

theorem mem_units_addIngredient (m : ItemMap) (i : Ingredient) (k u : String) :
    u ∈ (amountsOf (addIngredient m i) k).map Prod.fst ↔
      u ∈ (amountsOf m k).map Prod.fst ∨
        (normName i.product_name = k ∧ toLowerStr i.unit = u) := by
  by_cases hk : normName i.product_name = k
  · subst hk
    rw [amountsOf_addIngredient_self, jsMapSet_keys]
    split
    · rename_i hmem
      constructor
      · exact fun h => Or.inl h
      · rintro (h | ⟨-, h⟩)
        · exact h
        · exact h ▸ hmem
    · simp [List.mem_append, eq_comm]
  · rw [amountsOf_addIngredient_ne _ _ _ hk]
    simp [hk]

theorem mem_units_foldl (ings : List Ingredient) (m : ItemMap) (k u : String) :
    u ∈ (amountsOf (ings.foldl addIngredient m) k).map Prod.fst ↔
      u ∈ (amountsOf m k).map Prod.fst ∨
        ∃ i ∈ ings, normName i.product_name = k ∧ toLowerStr i.unit = u := by
  induction ings generalizing m with
  | nil => simp
  | cons i rest ih =>
    rw [List.foldl_cons, ih, mem_units_addIngredient]
    simp only [List.mem_cons]
    constructor
    · rintro ((h | h) | ⟨j, hj, hjk⟩)
      · exact Or.inl h
      · exact Or.inr ⟨i, Or.inl rfl, h⟩
      · exact Or.inr ⟨j, Or.inr hj, hjk⟩
    · rintro (h | ⟨j, (rfl | hj), hjk⟩)
      · exact Or.inl (Or.inl h)
      · exact Or.inl (Or.inr hjk)
      · exact Or.inr ⟨j, hj, hjk⟩

/-! ### Weight tracking (types from `src/unnamed/part_001`, consumer in
`WeightPage.tsx`; the backend computation is modelled from the spec) -/

structure WeightEntryRec where
  day : ℤ
  weight_kg : ℚ
deriving DecidableEq

structure StallStatus where
  can_detect : Bool
  is_stalled : Bool
  entries_in_period : ℕ
  min_entries_needed : ℕ
  weight_change_kg : Option ℚ
  message : String
deriving DecidableEq

structure WeightStats where
  starting_weight_kg : Option ℚ
  current_weight_kg : Option ℚ
  goal_weight_kg : Option ℚ
  total_lost_kg : Option ℚ
  remaining_kg : Option ℚ
  progress_percent : Option ℚ
deriving DecidableEq

def earlierEntry (a b : WeightEntryRec) : WeightEntryRec :=
  if b.day < a.day then b else a

def laterEntry (a b : WeightEntryRec) : WeightEntryRec :=
  if a.day < b.day then b else a

def earliestEntry (e : WeightEntryRec) (l : List WeightEntryRec) : WeightEntryRec :=
  l.foldl earlierEntry e

def latestEntry (e : WeightEntryRec) (l : List WeightEntryRec) : WeightEntryRec :=
  l.foldl laterEntry e

/-- Modelled from the spec: the backend weight service that computes the stall
window is not among the repository sources (only its response type
`StallStatus` and the `WeightPage` consumer are); this filter renders §4.1(4):
the 14 calendar days ending at `today`, containing only real (logged,
non-interpolated) entries. -/
def stallWindow (entries : List WeightEntryRec) (today : ℤ) :
    List WeightEntryRec :=
  entries.filter (fun e => decide (today - 14 < e.day ∧ e.day ≤ today))

/-- Modelled from the spec: the backend stall-detection routine is not among
the repository sources, so it is modelled from §4.1(4): fewer than 4 real
entries in the trailing 14-day window yields an "insufficient data" result
carrying the count so far and the minimum of 4; otherwise the verdict is
stalled iff the absolute net change between the earliest and latest entry in
the window is at most 0.5 kg.  The requested display window plays no role. -/
def earliestIn (l : List WeightEntryRec) : Option WeightEntryRec :=
  match l with
  | [] => none
  | e :: rest => some (earliestEntry e rest)

def latestIn (l : List WeightEntryRec) : Option WeightEntryRec :=
  match l with
  | [] => none
  | e :: rest => some (latestEntry e rest)

def detectStall (entries : List WeightEntryRec) (today : ℤ)
    (_displayDays : ℕ) : StallStatus :=
  let window := stallWindow entries today
  if window.length < 4 then
    { can_detect := false, is_stalled := false,
      entries_in_period := window.length, min_entries_needed := 4,
      weight_change_kg := none,
      message := "insufficient data: fewer than 4 entries in the last 14 days" }
  else
    let early := (earliestIn window).getD ⟨0, 0⟩
    let late := (latestIn window).getD ⟨0, 0⟩
    let change := late.weight_kg - early.weight_kg
    { can_detect := true, is_stalled := decide (|change| ≤ 1/2),
      entries_in_period := window.length, min_entries_needed := 4,
      weight_change_kg := some change,
      message := toString change ++ " kg net change against the 0.5 kg threshold" }

/-- Modelled from the spec: the backend stats computation is not among the
repository sources (only its response type `WeightStats` and the `WeightPage`
consumer are); §4.1(3): total lost is starting − current, progress is
lost / (starting − goal) × 100, 100 when starting equals goal, returned
unclamped. -/
def computeStats (starting current goal : ℚ) : WeightStats :=
  let lost := starting - current
  { starting_weight_kg := some starting
    current_weight_kg := some current
    goal_weight_kg := some goal
    total_lost_kg := some lost
    remaining_kg := some (current - goal)
    progress_percent :=
      some (if starting = goal then 100 else lost / (starting - goal) * 100) }

/-- The progress-bar clamp in `WeightPage.tsx`:
`Math.min(100, Math.max(0, stats.progress_percent))`, applied only to the
rendered bar width. -/
def progressBarWidth (p : ℚ) : ℚ := min 100 (max 0 p)

/-! ### Bridging lemmas -/

theorem jsMapGet_of_mem_nodup {α : Type} (m : List (String × α)) (p : String × α)
    (hm : (m.map Prod.fst).Nodup) (hp : p ∈ m) : jsMapGet m p.1 = some p.2 := by
  induction m with
  | nil => cases hp
  | cons q rest ih =>
    rw [List.map_cons, List.nodup_cons] at hm
    rcases List.mem_cons.mp hp with h | h
    · subst h
      simp [jsMapGet]
    · have hne : q.1 ≠ p.1 := by
        intro he
        exact hm.1 (he ▸ List.mem_map.mpr ⟨p, h, rfl⟩)
      simp only [jsMapGet, if_neg hne]
      exact ih hm.2 h

theorem buildItemMap_keys_nodup (plans : List MealPlan) :
    ((buildItemMap plans).map Prod.fst).Nodup :=
  keys_nodup_foldl _ _ (by simp)

theorem buildItemMap_units_nodup (plans : List MealPlan) (k : String) :
    ((amountsOf (buildItemMap plans) k).map Prod.fst).Nodup :=
  units_nodup_foldl _ _ _ (by simp [amountsOf, jsMapGet])

theorem buildItemMap_unitTotal (plans : List MealPlan) (k u : String) :
    unitTotal (buildItemMap plans) k u =
      exactTotal (flatIngredients plans) k u := by
  have := unitTotal_foldl (flatIngredients plans) [] k u
  simpa [unitTotal, amountsOf, jsMapGet] using this

theorem mem_buildItemMap_keys (plans : List MealPlan) (k : String) :
    k ∈ (buildItemMap plans).map Prod.fst ↔
      ∃ i ∈ flatIngredients plans, normName i.product_name = k := by
  have := mem_keys_foldl (flatIngredients plans) [] k
  simpa using this

theorem mem_buildItemMap_units (plans : List MealPlan) (k u : String) :
    u ∈ (amountsOf (buildItemMap plans) k).map Prod.fst ↔
      ∃ i ∈ flatIngredients plans,
        normName i.product_name = k ∧ toLowerStr i.unit = u := by
  have := mem_units_foldl (flatIngredients plans) [] k u
  simpa [amountsOf, jsMapGet] using this

theorem amountsOf_of_mem (plans : List MealPlan) (p : String × List (String × ℚ))
    (hp : p ∈ buildItemMap plans) : amountsOf (buildItemMap plans) p.1 = p.2 := by
  rw [amountsOf, jsMapGet_of_mem_nodup _ _ (buildItemMap_keys_nodup plans) hp]
  rfl

/-- Every stored per-unit amount is the exact full-precision sum of the
matching ingredient quantities. -/
theorem amount_eq_exactTotal (plans : List MealPlan)
    (p : String × List (String × ℚ)) (hp : p ∈ buildItemMap plans)
    (q : String × ℚ) (hq : q ∈ p.2) :
    q.2 = exactTotal (flatIngredients plans) p.1 q.1 := by
  have hamts := amountsOf_of_mem plans p hp
  have hnodup := buildItemMap_units_nodup plans p.1
  rw [hamts] at hnodup
  have hget : jsMapGet p.2 q.1 = some q.2 :=
    jsMapGet_of_mem_nodup _ _ hnodup hq
  have : unitTotal (buildItemMap plans) p.1 q.1 = q.2 := by
    rw [unitTotal, hamts, hget]
    rfl
  rw [← this, buildItemMap_unitTotal]

theorem mem_groceryItems_iff (plans : List MealPlan) (checked : Finset String)
    (lc : String → String → Int) (item : AggregatedItem) :
    item ∈ groceryItems plans checked lc ↔
      ∃ p ∈ buildItemMap plans, renderItem checked p.1 p.2 = item := by
  unfold groceryItems
  rw [List.mem_mergeSort, List.mem_map]

theorem groceryItems_perm (plans : List MealPlan) (checked : Finset String)
    (lc : String → String → Int) :
    (groceryItems plans checked lc).Perm
      ((buildItemMap plans).map (fun p => renderItem checked p.1 p.2)) :=
  List.mergeSort_perm _ _

theorem itemLE_total (lc : String → String → Int)
    (htotal : ∀ x y, lc x y ≤ 0 ∨ lc y x ≤ 0) (a b : AggregatedItem) :
    itemLE lc a b || itemLE lc b a := by
  unfold itemLE compareItems
  cases ha : a.checked <;> cases hb : b.checked <;>
    rcases htotal a.name b.name with h | h <;> simp_all

theorem itemLE_trans (lc : String → String → Int)
    (htrans : ∀ x y z, lc x y ≤ 0 → lc y z ≤ 0 → lc x z ≤ 0)
    (a b c : AggregatedItem) :
    itemLE lc a b → itemLE lc b c → itemLE lc a c := by
  unfold itemLE compareItems
  cases ha : a.checked <;> cases hb : b.checked <;> cases hc : c.checked <;>
    simp_all <;> exact fun h1 h2 => htrans a.name b.name c.name h1 h2

theorem itemLE_elim (lc : String → String → Int) (a b : AggregatedItem)
    (h : itemLE lc a b = true) :
    (a.checked = true → b.checked = true) ∧
      (a.checked = b.checked → lc a.name b.name ≤ 0) := by
  unfold itemLE compareItems at h
  cases ha : a.checked <;> cases hb : b.checked <;> simp_all

/-- C4: in every aggregated shopping list, each unchecked item precedes each
checked item (no item with `checked = true` appears before one with
`checked = false`), and any two items with the same checked state appear in
ascending order of display name under the locale comparison `lc` supplied by
the runtime (`localeCompare(·, 'de')`), assuming `lc` is a consistent
(total and transitive) comparator. -/
theorem grocery_sort_order (plans : List MealPlan) (checked : Finset String)
    (lc : String → String → Int)
    (htotal : ∀ x y, lc x y ≤ 0 ∨ lc y x ≤ 0)
    (htrans : ∀ x y z, lc x y ≤ 0 → lc y z ≤ 0 → lc x z ≤ 0) :
    (groceryItems plans checked lc).Pairwise (fun a b =>
      (a.checked = true → b.checked = true) ∧
        (a.checked = b.checked → lc a.name b.name ≤ 0)) := by
  have hs :
      (groceryItems plans checked lc).Pairwise (fun a b => itemLE lc a b) := by
    unfold groceryItems
    exact @List.sorted_mergeSort _ (itemLE lc)
      (itemLE_trans lc htrans) (itemLE_total lc htotal) _
  exact hs.imp (fun h => itemLE_elim lc _ _ h)

/-- A concrete meal-plan list used by the witnesses. -/
def samplePlans : List MealPlan :=
  [ { id := "p1", day_number := 1,
      meals := [ { ingredients :=
        [ { product_name := "Quark", quantity := 200, unit := "g" },
          { product_name := "Apfel", quantity := 1, unit := "Stück" } ] } ] },
    { id := "p2", day_number := 2,
      meals := [ { ingredients :=
        [ { product_name := " quark", quantity := 150, unit := "G" },
          { product_name := "Quark", quantity := 2, unit := "Stück" } ] } ] } ]

/-- A trivially consistent locale comparator used by the witnesses. -/
def lcZero : String → String → Int := fun _ _ => 0

/-- Witness for `grocery_sort_order` at a concrete plan list and the trivial
consistent comparator. -/
theorem grocery_sort_order_witness :
    (groceryItems samplePlans ∅ lcZero).Pairwise (fun a b =>
      (a.checked = true → b.checked = true) ∧
        (a.checked = b.checked → lcZero a.name b.name ≤ 0)) :=
  grocery_sort_order samplePlans ∅ lcZero
    (fun _ _ => Or.inl (le_refl 0))
    (fun _ _ _ h1 _ => h1)

/-- C1: per normalized product name the aggregator keeps one running total per
distinct lowercased unit: the stored total for key `k` and unit `u` is the sum
of the quantities of exactly the ingredient occurrences whose trimmed,
lowercased product name is `k` and whose lowercased unit is `u` (so equal-unit
occurrences are summed into a single total and different-unit occurrences
never mix), the unit list per product has no duplicates, a unit appears iff
some occurrence used it, and each rendered item concatenates its per-unit
parts with " + ". -/
theorem grocery_unit_totals (plans : List MealPlan) (checked : Finset String)
    (lc : String → String → Int) (k u : String) :
    unitTotal (buildItemMap plans) k u = exactTotal (flatIngredients plans) k u
    ∧ ((amountsOf (buildItemMap plans) k).map Prod.fst).Nodup
    ∧ (u ∈ (amountsOf (buildItemMap plans) k).map Prod.fst ↔
        ∃ i ∈ flatIngredients plans,
          normName i.product_name = k ∧ toLowerStr i.unit = u)
    ∧ ∀ item ∈ groceryItems plans checked lc,
        ∃ p ∈ buildItemMap plans,
          item.displayAmount = String.intercalate " + "
              (p.2.map (fun q => toString (round1 q.2) ++ " " ++ q.1))
          ∧ ∀ q ∈ p.2, q.2 = exactTotal (flatIngredients plans) p.1 q.1 := by
  refine ⟨buildItemMap_unitTotal plans k u, buildItemMap_units_nodup plans k,
    mem_buildItemMap_units plans k u, ?_⟩
  intro item hitem
  obtain ⟨p, hp, he⟩ := (mem_groceryItems_iff plans checked lc item).mp hitem
  refine ⟨p, hp, ?_, fun q hq => amount_eq_exactTotal plans p hp q hq⟩
  rw [← he]
  rfl

/-- C3: the aggregated list has exactly one item per distinct normalized
(trimmed, lowercased) product name occurring in the selected ingredients — the
item-map keys are duplicate-free and are exactly the occurring normalized
names, the output is a permutation of one rendered item per key, and each
rendered item's display name is the key with its first letter upper-cased. -/
theorem grocery_one_item_per_name (plans : List MealPlan)
    (checked : Finset String) (lc : String → String → Int) :
    ((buildItemMap plans).map Prod.fst).Nodup
    ∧ (∀ k, k ∈ (buildItemMap plans).map Prod.fst ↔
        ∃ i ∈ flatIngredients plans, normName i.product_name = k)
    ∧ (groceryItems plans checked lc).Perm
        ((buildItemMap plans).map (fun p => renderItem checked p.1 p.2))
    ∧ ∀ key amounts, (renderItem checked key amounts).name = capFirst key :=
  ⟨buildItemMap_keys_nodup plans, fun k => mem_buildItemMap_keys plans k,
    groceryItems_perm plans checked lc, fun _ _ => rfl⟩

/-- C5: after toggling any day or applying any preset, the checked set is
empty, and every item of the recomputed aggregation is unchecked. -/
theorem day_change_resets_checks (s : GroceryState) (day : ℕ) (days : List ℕ)
    (plans : List MealPlan) (lc : String → String → Int) :
    (toggleDay s day).checkedItems = ∅
    ∧ (applyPreset s days).checkedItems = ∅
    ∧ (∀ item ∈ groceryItems plans (toggleDay s day).checkedItems lc,
        item.checked = false)
    ∧ (∀ item ∈ groceryItems plans (applyPreset s days).checkedItems lc,
        item.checked = false) := by
  refine ⟨rfl, rfl, ?_, ?_⟩ <;>
  · intro item hitem
    obtain ⟨p, hp, he⟩ := (mem_groceryItems_iff _ _ _ _).mp hitem
    rw [← he]
    simp [renderItem, toggleDay, applyPreset]

/-- C6: selecting zero days yields no plan ids and an empty aggregated list,
as a normal (total) result. -/
theorem empty_selection_is_empty (mealPlans : List MealPlanListItem)
    (checked : Finset String) (lc : String → String → Int) :
    selectedPlanIds mealPlans [] = []
    ∧ groceryItems [] checked lc = [] := by
  constructor
  · simp [selectedPlanIds]
  · simp [groceryItems, buildItemMap, flatIngredients]

/-- C7: each displayed per-unit quantity is the one-decimal rounding of the
full-precision accumulated total — rounding happens once, at rendering, after
the exact sum over all contributing ingredient quantities. -/
theorem grocery_round_at_display (plans : List MealPlan)
    (checked : Finset String) (lc : String → String → Int)
    (item : AggregatedItem) (hitem : item ∈ groceryItems plans checked lc) :
    ∃ p ∈ buildItemMap plans,
      item.quantities = p.2.map (fun q => (round1 q.2, q.1))
      ∧ ∀ q ∈ p.2, q.2 = exactTotal (flatIngredients plans) p.1 q.1 := by
  obtain ⟨p, hp, he⟩ := (mem_groceryItems_iff plans checked lc item).mp hitem
  refine ⟨p, hp, ?_, fun q hq => amount_eq_exactTotal plans p hp q hq⟩
  rw [← he]
  rfl

theorem contains_filter_ne (l : List ℕ) (a d : ℕ) (ha : a ≠ d) :
    (l.filter (fun x => x != d)).contains a = l.contains a := by
  induction l with
  | nil => rfl
  | cons y l ih =>
    rw [List.filter_cons]
    by_cases hy : y = d
    · subst hy
      rw [if_neg (by simp), List.contains_cons, ih]
      have : (a == y) = false := by simpa using ha
      rw [this]
      simp
    · rw [if_pos (by simpa using hy), List.contains_cons, List.contains_cons, ih]

/-- C8: a selected day-number with no plan for the active level/gender yields
the same plan-id selection — and hence the same aggregated list for any
resolved plans — as the selection without that day; nothing fails. -/
theorem missing_day_contributes_nothing (mealPlans : List MealPlanListItem)
    (days : List ℕ) (d : ℕ)
    (h : ∀ p ∈ mealPlans, p.day_number ≠ d) :
    selectedPlanIds mealPlans days =
        selectedPlanIds mealPlans (days.filter (fun x => x != d))
    ∧ ∀ (fetch : String → MealPlan) (checked : Finset String)
        (lc : String → String → Int),
        groceryItems ((selectedPlanIds mealPlans days).map fetch) checked lc =
          groceryItems ((selectedPlanIds mealPlans
              (days.filter (fun x => x != d))).map fetch) checked lc := by
  have hids : selectedPlanIds mealPlans days =
      selectedPlanIds mealPlans (days.filter (fun x => x != d)) := by
    unfold selectedPlanIds
    congr 1
    apply List.filter_congr
    intro p hp
    exact (contains_filter_ne days p.day_number d (h p hp)).symm
  exact ⟨hids, fun fetch checked lc => by rw [hids]⟩

theorem toggleItem_twice (checked : Finset String) (name : String) :
    toggleItem (toggleItem checked name) name = checked := by
  unfold toggleItem
  by_cases hk : toLowerStr name ∈ checked
  · rw [if_pos hk, if_neg (Finset.not_mem_erase _ _), Finset.insert_erase hk]
  · rw [if_neg hk, if_pos (Finset.mem_insert_self _ _), Finset.erase_insert hk]

theorem toggleItem_mem_key (checked : Finset String) (name : String) :
    toLowerStr name ∈ toggleItem checked name ↔ toLowerStr name ∉ checked := by
  unfold toggleItem
  by_cases hk : toLowerStr name ∈ checked
  · simp [hk]
  · simp [hk]

theorem toggleItem_mem_other (checked : Finset String) (name k' : String)
    (hne : k' ≠ toLowerStr name) :
    k' ∈ toggleItem checked name ↔ k' ∈ checked := by
  unfold toggleItem
  by_cases hk : toLowerStr name ∈ checked
  · simp [hk, Finset.mem_erase, hne]
  · simp [hk, Finset.mem_insert, hne]

/-- C10: for any item produced by the aggregator, `toggleItem` with the item's
display name flips the membership of exactly one key — the lowercased display
name, which is the item's normalized aggregation key — leaves every other key
unchanged, and applied twice restores the original checked set. -/
theorem toggleItem_flips_exact_key (plans : List MealPlan)
    (checked : Finset String) (lc : String → String → Int)
    (item : AggregatedItem) (hitem : item ∈ groceryItems plans checked lc) :
    ∃ k, item.name = capFirst k
      ∧ toLowerStr item.name = k
      ∧ (k ∈ toggleItem checked item.name ↔ k ∉ checked)
      ∧ (∀ k', k' ≠ k → (k' ∈ toggleItem checked item.name ↔ k' ∈ checked))
      ∧ toggleItem (toggleItem checked item.name) item.name = checked := by
  obtain ⟨p, hp, he⟩ := (mem_groceryItems_iff plans checked lc item).mp hitem
  have hkey : p.1 ∈ (buildItemMap plans).map Prod.fst :=
    List.mem_map_of_mem _ hp
  obtain ⟨i, _hi, hnorm⟩ := (mem_buildItemMap_keys plans p.1).mp hkey
  have hname : item.name = capFirst p.1 := by rw [← he]; rfl
  have hlow : toLowerStr item.name = p.1 := by
    rw [hname, ← hnorm, normName]
    exact toLowerStr_capFirst _
  exact ⟨p.1, hname, hlow,
    hlow ▸ toggleItem_mem_key checked item.name,
    fun k' hne => toggleItem_mem_other checked item.name k' (hlow ▸ hne),
    toggleItem_twice checked item.name⟩

theorem earliestEntry_mem (e : WeightEntryRec) (l : List WeightEntryRec) :
    earliestEntry e l ∈ e :: l := by
  induction l generalizing e with
  | nil => simp [earliestEntry]
  | cons f rest ih =>
    have hfold : earliestEntry e (f :: rest) = earliestEntry (earlierEntry e f) rest := by
      unfold earliestEntry
      rw [List.foldl_cons]
    have hmem := ih (earlierEntry e f)
    rw [hfold]
    rcases List.mem_cons.mp hmem with hh | hh
    · rw [hh]
      unfold earlierEntry
      split
      · exact List.mem_cons.mpr (Or.inr (List.mem_cons_self _ _))
      · exact List.mem_cons_self _ _
    · exact List.mem_cons.mpr (Or.inr (List.mem_cons.mpr (Or.inr hh)))

theorem earliestEntry_le (e : WeightEntryRec) (l : List WeightEntryRec) :
    ∀ x ∈ e :: l, (earliestEntry e l).day ≤ x.day := by
  induction l generalizing e with
  | nil =>
    intro x hx
    rw [List.mem_singleton] at hx
    subst hx
    exact le_refl _
  | cons f rest ih =>
    intro x hx
    have hmin : (earlierEntry e f).day ≤ e.day ∧ (earlierEntry e f).day ≤ f.day := by
      unfold earlierEntry
      split
      · exact ⟨le_of_lt (by assumption), le_refl _⟩
      · exact ⟨le_refl _, le_of_not_lt (by assumption)⟩
    have hfold : earliestEntry e (f :: rest) = earliestEntry (earlierEntry e f) rest := by
      unfold earliestEntry
      rw [List.foldl_cons]
    have hhead := ih (earlierEntry e f) _ (List.mem_cons_self _ _)
    rw [hfold]
    rcases List.mem_cons.mp hx with h1 | hx'
    · rw [h1]
      exact le_trans hhead hmin.1
    · rcases List.mem_cons.mp hx' with h2 | hx''
      · rw [h2]
        exact le_trans hhead hmin.2
      · exact ih (earlierEntry e f) _ (List.mem_cons.mpr (Or.inr hx''))

theorem latestEntry_mem (e : WeightEntryRec) (l : List WeightEntryRec) :
    latestEntry e l ∈ e :: l := by
  induction l generalizing e with
  | nil => simp [latestEntry]
  | cons f rest ih =>
    have hfold : latestEntry e (f :: rest) = latestEntry (laterEntry e f) rest := by
      unfold latestEntry
      rw [List.foldl_cons]
    have hmem := ih (laterEntry e f)
    rw [hfold]
    rcases List.mem_cons.mp hmem with hh | hh
    · rw [hh]
      unfold laterEntry
      split
      · exact List.mem_cons.mpr (Or.inr (List.mem_cons_self _ _))
      · exact List.mem_cons_self _ _
    · exact List.mem_cons.mpr (Or.inr (List.mem_cons.mpr (Or.inr hh)))

theorem latestEntry_ge (e : WeightEntryRec) (l : List WeightEntryRec) :
    ∀ x ∈ e :: l, x.day ≤ (latestEntry e l).day := by
  induction l generalizing e with
  | nil =>
    intro x hx
    rw [List.mem_singleton] at hx
    subst hx
    exact le_refl _
  | cons f rest ih =>
    intro x hx
    have hmax : e.day ≤ (laterEntry e f).day ∧ f.day ≤ (laterEntry e f).day := by
      unfold laterEntry
      split
      · exact ⟨le_of_lt (by assumption), le_refl _⟩
      · exact ⟨le_refl _, le_of_not_lt (by assumption)⟩
    have hfold : latestEntry e (f :: rest) = latestEntry (laterEntry e f) rest := by
      unfold latestEntry
      rw [List.foldl_cons]
    have hhead := ih (laterEntry e f) _ (List.mem_cons_self _ _)
    rw [hfold]
    rcases List.mem_cons.mp hx with h1 | hx'
    · rw [h1]
      exact le_trans hmax.1 hhead
    · rcases List.mem_cons.mp hx' with h2 | hx''
      · rw [h2]
        exact le_trans hmax.2 hhead
      · exact ih (laterEntry e f) _ (List.mem_cons.mpr (Or.inr hx''))

/-- C2: with fewer than 4 real entries in the trailing 14-day window the
result is "insufficient data" — no verdict, the count so far and the minimum
of 4 reported — regardless of the requested display window; with at least 4
such entries the verdict is produced and is "stalled" exactly when the
absolute net change between the earliest and the latest entry of the window
is at most 0.5 kg. -/
theorem stall_verdict (entries : List WeightEntryRec) (today : ℤ)
    (displayDays displayDays' : ℕ) :
    ((stallWindow entries today).length < 4 →
      (detectStall entries today displayDays).can_detect = false
      ∧ (detectStall entries today displayDays).is_stalled = false
      ∧ (detectStall entries today displayDays).entries_in_period =
          (stallWindow entries today).length
      ∧ (detectStall entries today displayDays).min_entries_needed = 4
      ∧ (detectStall entries today displayDays).weight_change_kg = none)
    ∧ (4 ≤ (stallWindow entries today).length →
      ∃ early ∈ stallWindow entries today, ∃ late ∈ stallWindow entries today,
        (∀ x ∈ stallWindow entries today, early.day ≤ x.day ∧ x.day ≤ late.day)
        ∧ (detectStall entries today displayDays).can_detect = true
        ∧ (detectStall entries today displayDays).weight_change_kg =
            some (late.weight_kg - early.weight_kg)
        ∧ ((detectStall entries today displayDays).is_stalled = true ↔
            |late.weight_kg - early.weight_kg| ≤ 1/2))
    ∧ detectStall entries today displayDays =
        detectStall entries today displayDays' := by
  refine ⟨?_, ?_, rfl⟩
  · intro hlt
    unfold detectStall
    rw [if_pos hlt]
    exact ⟨rfl, rfl, rfl, rfl, rfl⟩
  · intro hge
    have hne : ¬ (stallWindow entries today).length < 4 := not_lt.mpr hge
    unfold detectStall
    rw [if_neg hne]
    cases hw : stallWindow entries today with
    | nil =>
      rw [hw] at hge
      simp at hge
    | cons e rest =>
      refine ⟨earliestEntry e rest, earliestEntry_mem e rest,
        latestEntry e rest, latestEntry_mem e rest,
        fun x hx => ⟨earliestEntry_le e rest x hx, latestEntry_ge e rest x hx⟩,
        rfl, rfl, ?_⟩
      simp [earliestIn, latestIn]

/-- C9: the stats carry the raw progress percentage
lost / (starting − goal) × 100 unclamped, and the display clamp to [0, 100]
is a separate read-only rendering step that is the identity whenever the raw
value already lies in [0, 100]. -/
theorem progress_percent_clamped_display_only (starting current goal : ℚ)
    (h : starting ≠ goal) :
    (computeStats starting current goal).progress_percent =
      some ((starting - current) / (starting - goal) * 100)
    ∧ (∀ p : ℚ, 0 ≤ progressBarWidth p ∧ progressBarWidth p ≤ 100)
    ∧ (∀ p : ℚ, 0 ≤ p → p ≤ 100 → progressBarWidth p = p) := by
  refine ⟨by simp [computeStats, h], ?_, ?_⟩
  · intro p
    unfold progressBarWidth
    exact ⟨le_min (by norm_num) (le_max_left 0 p), min_le_left _ _⟩
  · intro p h0 h100
    unfold progressBarWidth
    rw [max_eq_right h0, min_eq_right h100]

/-- Witness for `progress_percent_clamped_display_only` at concrete weights
(start 90 kg, current 86 kg, goal 80 kg: raw 40 %). -/
theorem progress_percent_witness :
    (computeStats 90 86 80).progress_percent =
      some (((90 : ℚ) - 86) / ((90 : ℚ) - 80) * 100)
    ∧ (∀ p : ℚ, 0 ≤ progressBarWidth p ∧ progressBarWidth p ≤ 100)
    ∧ (∀ p : ℚ, 0 ≤ p → p ≤ 100 → progressBarWidth p = p) :=
  progress_percent_clamped_display_only 90 86 80 (by norm_num)

/-- Witness for `missing_day_contributes_nothing`: day 4 has no plan in the
two-plan catalogue. -/
theorem missing_day_witness :
    selectedPlanIds
        [⟨"p1", 1⟩, ⟨"p2", 2⟩] [1, 4] =
      selectedPlanIds
        [⟨"p1", 1⟩, ⟨"p2", 2⟩] ([1, 4].filter (fun x => x != 4))
    ∧ ∀ (fetch : String → MealPlan) (checked : Finset String)
        (lc : String → String → Int),
        groceryItems ((selectedPlanIds [⟨"p1", 1⟩, ⟨"p2", 2⟩] [1, 4]).map fetch)
            checked lc =
          groceryItems ((selectedPlanIds [⟨"p1", 1⟩, ⟨"p2", 2⟩]
              ([1, 4].filter (fun x => x != 4))).map fetch) checked lc :=
  missing_day_contributes_nothing [⟨"p1", 1⟩, ⟨"p2", 2⟩] [1, 4] 4 (by decide)

theorem buildItemMap_samplePlans :
    buildItemMap samplePlans =
      [("quark", [("g", 350), ("stück", 2)]), ("apfel", [("stück", 1)])] := by
  simp +decide [buildItemMap, flatIngredients, samplePlans, addIngredient,
    normName, jsMapGet, jsMapSet, toLowerStr, trimStr, capFirst, isWsChar,
    Char.toLower, Char.ofNat, List.foldl_cons]
  norm_num

/-- The aggregated Quark line of `samplePlans`. -/
def sampleItem : AggregatedItem :=
  renderItem ∅ "quark" [("g", 350), ("stück", 2)]

theorem sampleItem_mem : sampleItem ∈ groceryItems samplePlans ∅ lcZero := by
  rw [mem_groceryItems_iff]
  refine ⟨("quark", [("g", 350), ("stück", 2)]), ?_, rfl⟩
  rw [buildItemMap_samplePlans]
  exact List.mem_cons_self _ _

/-- Witness for `grocery_round_at_display` at the concrete Quark item. -/
theorem grocery_round_at_display_witness :
    ∃ p ∈ buildItemMap samplePlans,
      sampleItem.quantities = p.2.map (fun q => (round1 q.2, q.1))
      ∧ ∀ q ∈ p.2, q.2 = exactTotal (flatIngredients samplePlans) p.1 q.1 :=
  grocery_round_at_display samplePlans ∅ lcZero sampleItem sampleItem_mem

/-- Witness for `toggleItem_flips_exact_key` at the concrete Quark item. -/
theorem toggleItem_flips_witness :
    ∃ k, sampleItem.name = capFirst k
      ∧ toLowerStr sampleItem.name = k
      ∧ (k ∈ toggleItem ∅ sampleItem.name ↔ k ∉ (∅ : Finset String))
      ∧ (∀ k', k' ≠ k →
          (k' ∈ toggleItem ∅ sampleItem.name ↔ k' ∈ (∅ : Finset String)))
      ∧ toggleItem (toggleItem ∅ sampleItem.name) sampleItem.name = ∅ :=
  toggleItem_flips_exact_key samplePlans ∅ lcZero sampleItem sampleItem_mem

end Sloth
